import Mathlib

/-!
Shallow embedding of `src/policies/q_table_learning.py`: a discretizing
observation wrapper (`DiscretizedObservationWrapper`) and a tabular
Q-learning policy (`QLearnPolicy`).  Machine floating-point values are
modelled by exact rationals; numpy arrays by lists.
-/

set_option maxHeartbeats 1000000

/-- Embeds `np.linspace(l, h, n + 1)` as used at line 44 of the source:
`n + 1` evenly spaced points from `l` to `h` inclusive, point `j` being
`l + j * (h - l) / n`.  (For `n = 0`, numpy returns the single point `[l]`;
here division by zero yields `0` in `ℚ`, so the model also returns `[l]`.) -/
def linspace (l h : ℚ) (n : ℕ) : List ℚ :=
  (List.range (n + 1)).map (fun (j : ℕ) => l + (j : ℚ) * ((h - l) / (n : ℚ)))

/-- Embeds `np.digitize([x], bins)[0]` as used at line 54 of the source, for
monotonically non-decreasing `bins` (the case the program constructs via
`linspace`): the index of the first edge strictly greater than `x`, i.e. the
number of edges `b` with `b ≤ x`. -/
def digitize (x : ℚ) (bins : List ℚ) : ℕ :=
  bins.countP (fun b => decide (b ≤ x))

/-- Embeds `np.max` over a nonempty 1-D array by folding `max`; the
accumulator starts at the given first element. -/
def npMaxAux (x : ℚ) : List ℚ → ℚ
  | [] => x
  | y :: ys => npMaxAux (max x y) ys

/-- Embeds `np.max` of a 1-D array (lines 90 and 101 of the source).  numpy
raises on an empty array; the model returns `0` there, and every theorem that
relies on the maximum is stated for nonempty rows. -/
def npMax : List ℚ → ℚ
  | [] => 0
  | x :: xs => npMaxAux x xs

/-- Embeds `np.random.choice(l)`: an element of `l` picked by the random
draw `r` (the draw is abstracted as an arbitrary natural number; any draw
selects a member of `l`). -/
def npRandomChoice (l : List ℕ) (r : ℕ) : ℕ :=
  l.getD (r % l.length) 0

/-- The state of a `DiscretizedObservationWrapper` after `__init__`
(lines 33–48): `n_bins`, the per-dimension bin edges `val_bins`
(`[np.linspace(l, h, n_bins + 1) for l, h in zip(low, high)]`), and the size
of the resulting discrete observation space, `(n_bins + 2) ** len(low)`. -/
structure DiscretizedObservationWrapper where
  n_bins : ℕ
  val_bins : List (List ℚ)
  observation_space_n : ℕ
deriving Repr, DecidableEq

/-- The wrapper state built by `DiscretizedObservationWrapper.__init__` from
bound vectors `low`, `high` and bin count `n_bins` (lines 43–48).  `zip`
truncates to the shorter of `low` and `high`, exactly as in Python. -/
def buildDiscretizedObservationWrapper (low high : List ℚ) (n_bins : ℕ) :
    DiscretizedObservationWrapper :=
  ⟨n_bins, List.zipWith (fun l h => linspace l h n_bins) low high,
    (n_bins + 2) ^ low.length⟩

/-- `DiscretizedObservationWrapper.__init__` as a fallible constructor.  The
only check the source performs (line 35) is
`assert isinstance(env.observation_space, Box)`, which the typed embedding
guarantees, so construction always succeeds: no hyperparameter value is
rejected. -/
def mkDiscretizedObservationWrapper (low high : List ℚ) (n_bins : ℕ) :
    Except String DiscretizedObservationWrapper :=
  Except.ok (buildDiscretizedObservationWrapper low high n_bins)

/-- Embeds `DiscretizedObservationWrapper._convert_to_one_number`
(lines 50–51): `sum([d * ((self.n_bins + 2) ** i) for i, d in
enumerate(digits)])`. -/
def DiscretizedObservationWrapper.convert_to_one_number
    (w : DiscretizedObservationWrapper) (digits : List ℕ) : ℕ :=
  (digits.enum.map (fun p => p.2 * (w.n_bins + 2) ^ p.1)).sum

/-- The per-dimension digit list computed inside
`DiscretizedObservationWrapper.observation` (lines 54–55):
`[np.digitize([x], bins)[0] for x, bins in zip(observation, self.val_bins)]`. -/
def DiscretizedObservationWrapper.digitsOf
    (w : DiscretizedObservationWrapper) (observation : List ℚ) : List ℕ :=
  List.zipWith digitize observation w.val_bins

/-- Embeds `DiscretizedObservationWrapper.observation` (lines 53–56). -/
def DiscretizedObservationWrapper.observation
    (w : DiscretizedObservationWrapper) (obs : List ℚ) : ℕ :=
  w.convert_to_one_number (w.digitsOf obs)

/-- The decoding procedure of the specification: peel off `d` base-`base`
digits of `s` by repeated division and modulo, least-significant digit
first. -/
def decodeState (base : ℕ) : ℕ → ℕ → List ℕ
  | 0, _ => []
  | d + 1, s => s % base :: decodeState base d (s / base)

-- ### The Q-learning policy

/-- The state of a `QLearnPolicy` after `__init__` (lines 60–80 of the
source): the five hyperparameters, the action/state counts read from the
wrapped environment's spaces, and the value table `Q`. -/
structure QLearnPolicy where
  gamma : ℚ
  alpha : ℚ
  alpha_decay : ℚ
  epsilon : ℚ
  epsilon_final : ℚ
  n_actions : ℕ
  n_states : ℕ
  Q : List (List ℚ)
deriving Repr, DecidableEq

/-- The policy state built by `QLearnPolicy.__init__`: hyperparameters are
stored unchecked and `Q = np.zeros(shape=(n_states, n_actions))`
(line 80). -/
def buildQLearnPolicy (n_states n_actions : ℕ)
    (gamma alpha alpha_decay epsilon epsilon_final : ℚ) : QLearnPolicy :=
  ⟨gamma, alpha, alpha_decay, epsilon, epsilon_final, n_actions, n_states,
    List.replicate n_states (List.replicate n_actions 0)⟩

/-- `QLearnPolicy.__init__` as a fallible constructor.  The only checks the
source performs (lines 66–67) are `assert isinstance(env.action_space,
Discrete)` and `assert isinstance(env.observation_space, Discrete)`, which
the typed embedding guarantees, so construction always succeeds: no
hyperparameter value is rejected. -/
def mkQLearnPolicy (n_states n_actions : ℕ)
    (gamma alpha alpha_decay epsilon epsilon_final : ℚ) :
    Except String QLearnPolicy :=
  Except.ok (buildQLearnPolicy n_states n_actions gamma alpha alpha_decay
    epsilon epsilon_final)

/-- Well-formedness of a policy's value table: `Q` has `n_states` rows of
`n_actions` entries each, the shape `np.zeros` gives it at construction. -/
def QLearnPolicy.WF (p : QLearnPolicy) : Prop :=
  p.Q.length = p.n_states ∧ ∀ row ∈ p.Q, row.length = p.n_actions

instance (p : QLearnPolicy) : Decidable p.WF := by
  unfold QLearnPolicy.WF
  infer_instance

/-- Reading cell `(s, a)` of a value table, i.e. `Q[s, a]`. -/
def qcell (Q : List (List ℚ)) (s a : ℕ) : ℚ :=
  (Q.getD s []).getD a 0

/-- The table transformation performed by `QLearnPolicy._update_q_value`
(lines 94–102): with `target = reward` when `done` and
`target = reward + gamma * np.max(Q[new_state, :])` otherwise,
`Q[state, action] += alpha * (target - Q[state, action])`. -/
def updateQTable (Q : List (List ℚ)) (gamma alpha : ℚ)
    (state action new_state : ℕ) (reward : ℚ) (done : Bool) :
    List (List ℚ) :=
  let row := Q.getD state []
  let target : ℚ :=
    match done with
    | true => reward
    | false => reward + gamma * npMax (Q.getD new_state [])
  Q.set state
    (row.set action (row.getD action 0 + alpha * (target - row.getD action 0)))

/-- Embeds `QLearnPolicy._update_q_value` (lines 94–102) with numpy's
failure behaviour made explicit: indexing `Q[state, action]` raises
`IndexError` when `state` or `action` is out of range, and in the
non-terminal branch `np.max(self.Q[new_state, :])` is evaluated first,
raising `IndexError` for an out-of-range `new_state` (and `ValueError` on an
empty row).  The terminal branch never touches `new_state`. -/
def QLearnPolicy.update_q_value (p : QLearnPolicy)
    (state action new_state : ℕ) (reward : ℚ) (done : Bool) :
    Except String QLearnPolicy :=
  match done with
  | true =>
      if state < p.Q.length ∧ action < (p.Q.getD state []).length then
        Except.ok ⟨p.gamma, p.alpha, p.alpha_decay, p.epsilon, p.epsilon_final,
          p.n_actions, p.n_states,
          updateQTable p.Q p.gamma p.alpha state action new_state reward true⟩
      else Except.error "IndexError"
  | false =>
      if new_state < p.Q.length ∧ p.Q.getD new_state [] ≠ [] then
        if state < p.Q.length ∧ action < (p.Q.getD state []).length then
          Except.ok ⟨p.gamma, p.alpha, p.alpha_decay, p.epsilon, p.epsilon_final,
            p.n_actions, p.n_states,
            updateQTable p.Q p.gamma p.alpha state action new_state reward false⟩
        else Except.error "IndexError"
      else Except.error "IndexError"

/-- The exploitation computation of `QLearnPolicy.act` (lines 90–91):
`max_q = np.max(self.Q[state, :])` and
`np.arange(self.n_actions)[self.Q[state, :] == max_q]`, the list of action
indices whose Q-value equals the row maximum (exact equality). -/
def QLearnPolicy.actions_with_max_q (p : QLearnPolicy) (state : ℕ) : List ℕ :=
  (List.range p.n_actions).filter
    (fun a => decide ((p.Q.getD state []).getD a 0 = npMax (p.Q.getD state [])))

/-- Embeds `QLearnPolicy.act` (lines 82–92).  The three random draws of the
source are abstracted as parameters: `randE` models `np.random.rand()`,
`randA` the exploratory `self.env.action_space.sample()` (uniform in
`[0, n_actions)`, modelled as `randA % n_actions`), and `randT` the draw of
`np.random.choice` among the tied best actions. -/
def QLearnPolicy.act (p : QLearnPolicy) (state : ℕ) (training : Bool)
    (randE : ℚ) (randA randT : ℕ) : ℕ :=
  if training = true ∧ 0 < p.epsilon ∧ randE < p.epsilon then
    randA % p.n_actions
  else
    npRandomChoice (p.actions_with_max_q state) randT

/-- The per-episode epsilon adjustment of `QLearnPolicy.train`
(lines 128–129): `if self.epsilon > self.epsilon_final: self.epsilon -=
epsilon_drop`. -/
def trainEpsilonStep (epsilon_final epsilon_drop e : ℚ) : ℚ :=
  if epsilon_final < e then e - epsilon_drop else e

/-- The agent's epsilon after `N` completed episodes of
`QLearnPolicy.train(n_episodes)` started with epsilon `epsilon0`:
`epsilon_drop = (self.epsilon - self.epsilon_final) / n_episodes` is fixed
at entry (line 107) and `trainEpsilonStep` runs once per episode. -/
def trainEpsilonAfter (epsilon0 epsilon_final : ℚ) (n_episodes : ℕ) :
    ℕ → ℚ
  | 0 => epsilon0
  | N + 1 =>
      trainEpsilonStep epsilon_final
        ((epsilon0 - epsilon_final) / (n_episodes : ℚ))
        (trainEpsilonAfter epsilon0 epsilon_final n_episodes N)

/-- One recorded call to the update operation: the transition arguments
together with the learning rate in force when the call was made (`train`
decays `self.alpha` between episodes, so different calls may use different
rates). -/
structure UpdateCall where
  state : ℕ
  action : ℕ
  new_state : ℕ
  reward : ℚ
  alpha : ℚ
  done : Bool
deriving Repr, DecidableEq

/-- A finite sequence of `_update_q_value` table transformations applied in
order. -/
def applyUpdates (gamma : ℚ) (Q : List (List ℚ)) :
    List UpdateCall → List (List ℚ)
  | [] => Q
  | c :: cs =>
      applyUpdates gamma
        (updateQTable Q gamma c.alpha c.state c.action c.new_state c.reward
          c.done) cs

/-- A small concrete policy used by the witnesses: 2 states, 2 actions,
all-zero table, `gamma = 99/100`, `alpha = 1/2`, `epsilon = 1`,
`epsilon_final = 1/20`. -/
def pTest : QLearnPolicy := buildQLearnPolicy 2 2 (99/100) (1/2) (499/500) 1 (1/20)

/-- A small concrete wrapper used by the witnesses: two dimensions with
bounds `[0,1]` and `[0,2]`, `n_bins = 8`. -/
def wTest : DiscretizedObservationWrapper :=
  buildDiscretizedObservationWrapper [0, 0] [1, 2] 8

-- ### Helper lemmas about the mixed-radix encoding

theorem sum_enumFrom_succ (base : ℕ) :
    ∀ (ds : List ℕ) (k : ℕ),
      ((ds.enumFrom (k + 1)).map (fun p => p.2 * base ^ p.1)).sum
        = base * ((ds.enumFrom k).map (fun p => p.2 * base ^ p.1)).sum := by
  intro ds
  induction ds with
  | nil => intro k; simp
  | cons d ds ih =>
      intro k
      simp only [List.enumFrom_cons, List.map_cons, List.sum_cons, ih (k + 1)]
      ring

/-- The encoding consumes the head as the least-significant digit. -/
theorem convert_to_one_number_cons (w : DiscretizedObservationWrapper)
    (d : ℕ) (ds : List ℕ) :
    w.convert_to_one_number (d :: ds)
      = d + (w.n_bins + 2) * w.convert_to_one_number ds := by
  simp only [DiscretizedObservationWrapper.convert_to_one_number, List.enum_cons,
    List.map_cons, List.sum_cons, pow_zero, Nat.mul_one]
  have h := sum_enumFrom_succ (w.n_bins + 2) ds 0
  norm_num at h
  simp only [List.enum]
  rw [h]

theorem convert_to_one_number_nil (w : DiscretizedObservationWrapper) :
    w.convert_to_one_number [] = 0 := rfl

/-- Closed form: the encoding is `Σ dᵢ · (n_bins+2)^i`. -/
theorem convert_to_one_number_eq_sum (w : DiscretizedObservationWrapper) :
    ∀ ds : List ℕ,
      w.convert_to_one_number ds
        = Finset.sum (Finset.range ds.length)
            (fun i => ds.getD i 0 * (w.n_bins + 2) ^ i) := by
  intro ds
  induction ds with
  | nil => simp [convert_to_one_number_nil]
  | cons d ds ih =>
      rw [convert_to_one_number_cons, ih]
      rw [List.length_cons, Finset.sum_range_succ']
      simp only [List.getD_cons_succ, List.getD_cons_zero, pow_zero, mul_one]
      rw [Finset.mul_sum]
      rw [Finset.sum_congr rfl
        (fun x _ => by ring :
          ∀ x ∈ Finset.range ds.length,
            (w.n_bins + 2) * (ds.getD x 0 * (w.n_bins + 2) ^ x)
              = ds.getD x 0 * (w.n_bins + 2) ^ (x + 1))]
      omega

/-- If every digit is below the base, the encoding is below `base ^ length`. -/
theorem convert_to_one_number_lt (w : DiscretizedObservationWrapper) :
    ∀ ds : List ℕ, (∀ d ∈ ds, d < w.n_bins + 2) →
      w.convert_to_one_number ds < (w.n_bins + 2) ^ ds.length := by
  intro ds
  induction ds with
  | nil => intro _; simp [convert_to_one_number_nil]
  | cons d ds ih =>
      intro h
      rw [convert_to_one_number_cons, List.length_cons]
      have hd : d < w.n_bins + 2 := h d (List.mem_cons_self d ds)
      have hds : w.convert_to_one_number ds < (w.n_bins + 2) ^ ds.length :=
        ih (fun x hx => h x (List.mem_cons_of_mem d hx))
      have step : d + (w.n_bins + 2) * w.convert_to_one_number ds
          < (w.n_bins + 2) * (w.convert_to_one_number ds + 1) := by
        have h1 : (w.n_bins + 2) * (w.convert_to_one_number ds + 1)
            = (w.n_bins + 2) * w.convert_to_one_number ds + (w.n_bins + 2) := by
          ring
        rw [h1]
        omega
      calc d + (w.n_bins + 2) * w.convert_to_one_number ds
          < (w.n_bins + 2) * (w.convert_to_one_number ds + 1) := step
        _ ≤ (w.n_bins + 2) * (w.n_bins + 2) ^ ds.length :=
            Nat.mul_le_mul_left _ (by omega)
        _ = (w.n_bins + 2) ^ (ds.length + 1) := by ring

/-- Decoding inverts the encoding when every digit is below the base. -/
theorem decode_convert (w : DiscretizedObservationWrapper) :
    ∀ ds : List ℕ, (∀ d ∈ ds, d < w.n_bins + 2) →
      decodeState (w.n_bins + 2) ds.length (w.convert_to_one_number ds) = ds := by
  intro ds
  induction ds with
  | nil => intro _; rfl
  | cons d ds ih =>
      intro h
      have hd : d < w.n_bins + 2 := h d (List.mem_cons_self d ds)
      rw [convert_to_one_number_cons]
      show (d + (w.n_bins + 2) * w.convert_to_one_number ds) % (w.n_bins + 2)
            :: decodeState (w.n_bins + 2) ds.length
              ((d + (w.n_bins + 2) * w.convert_to_one_number ds) / (w.n_bins + 2))
          = d :: ds
      rw [Nat.add_mul_mod_self_left, Nat.mod_eq_of_lt hd,
        Nat.add_mul_div_left _ _ (by omega : 0 < w.n_bins + 2),
        Nat.div_eq_of_lt hd, Nat.zero_add]
      rw [ih (fun x hx => h x (List.mem_cons_of_mem d hx))]

-- ### Generic list helper lemmas

theorem zipWith_getD {α β γ : Type} (f : α → β → γ) (d1 : α) (d2 : β) (dg : γ) :
    ∀ (l1 : List α) (l2 : List β) (i : ℕ), i < l1.length → i < l2.length →
      (List.zipWith f l1 l2).getD i dg = f (l1.getD i d1) (l2.getD i d2) := by
  intro l1
  induction l1 with
  | nil => intro l2 i h1 _; simp at h1
  | cons a as ih =>
      intro l2 i h1 h2
      cases l2 with
      | nil => simp at h2
      | cons b bs =>
          cases i with
          | zero => simp
          | succ j =>
              simp only [List.zipWith_cons_cons, List.getD_cons_succ]
              exact ih bs j (by simpa using h1) (by simpa using h2)

theorem getD_mem_of_lt {α : Type} (d : α) :
    ∀ (l : List α) (i : ℕ), i < l.length → l.getD i d ∈ l := by
  intro l
  induction l with
  | nil => intro i h; simp at h
  | cons a as ih =>
      intro i h
      cases i with
      | zero => simp
      | succ j =>
          simp only [List.getD_cons_succ]
          exact List.mem_cons_of_mem a (ih j (by simpa using h))

theorem getD_set_same {α : Type} (d x : α) :
    ∀ (l : List α) (i : ℕ), i < l.length → (l.set i x).getD i d = x := by
  intro l
  induction l with
  | nil => intro i h; simp at h
  | cons a as ih =>
      intro i h
      cases i with
      | zero => simp
      | succ j =>
          simp only [List.set_cons_succ, List.getD_cons_succ]
          exact ih j (by simpa using h)

theorem getD_set_diff {α : Type} (d x : α) :
    ∀ (l : List α) (i j : ℕ), i ≠ j → (l.set i x).getD j d = l.getD j d := by
  intro l
  induction l with
  | nil => intro i j _; simp
  | cons a as ih =>
      intro i j hij
      cases i with
      | zero =>
          cases j with
          | zero => exact absurd rfl hij
          | succ m => simp
      | succ n =>
          cases j with
          | zero => simp
          | succ m =>
              simp only [List.set_cons_succ, List.getD_cons_succ]
              exact ih n m (fun he => hij (by rw [he]))

theorem mem_of_mem_set {α : Type} (x : α) :
    ∀ (l : List α) (i : ℕ) (b : α), x ∈ l.set i b → x ∈ l ∨ x = b := by
  intro l
  induction l with
  | nil => intro i b h; simp at h
  | cons a as ih =>
      intro i b h
      cases i with
      | zero =>
          rcases List.mem_cons.mp h with h1 | h1
          · exact Or.inr h1
          · exact Or.inl (List.mem_cons_of_mem a h1)
      | succ n =>
          rcases List.mem_cons.mp (by simpa using h) with h1 | h1
          · exact Or.inl (by simp [h1])
          · rcases ih n b h1 with h2 | h2
            · exact Or.inl (List.mem_cons_of_mem a h2)
            · exact Or.inr h2

-- ### Lemmas about linspace and digitize

theorem linspace_length (l h : ℚ) (n : ℕ) : (linspace l h n).length = n + 1 := by
  rw [linspace, List.length_map, List.length_range]

theorem linspace_mem_bounds (l h : ℚ) (n : ℕ) (hlh : l ≤ h) :
    ∀ b ∈ linspace l h n, l ≤ b ∧ b ≤ h := by
  intro b hb
  rw [linspace, List.mem_map] at hb
  obtain ⟨j, hj, rfl⟩ := hb
  rw [List.mem_range] at hj
  rcases Nat.eq_zero_or_pos n with hn | hn
  · subst hn
    simp only [Nat.cast_zero, div_zero, mul_zero, add_zero]
    exact ⟨le_refl l, hlh⟩
  · have hnq : (0 : ℚ) < (n : ℚ) := by exact_mod_cast hn
    have hstep : (0 : ℚ) ≤ (h - l) / (n : ℚ) :=
      div_nonneg (by linarith) (le_of_lt hnq)
    have hjn : (j : ℚ) ≤ (n : ℚ) := by
      exact_mod_cast Nat.le_of_lt_succ hj
    constructor
    · have : (0 : ℚ) ≤ (j : ℚ) * ((h - l) / (n : ℚ)) :=
        mul_nonneg (Nat.cast_nonneg j) hstep
      linarith
    · have h1 : (j : ℚ) * ((h - l) / (n : ℚ)) ≤ (n : ℚ) * ((h - l) / (n : ℚ)) :=
        mul_le_mul_of_nonneg_right hjn hstep
      have hne : (n : ℚ) ≠ 0 := ne_of_gt hnq
      have h2 : (n : ℚ) * ((h - l) / (n : ℚ)) = h - l := by
        field_simp
      linarith

theorem linspace_low_mem (l h : ℚ) (n : ℕ) : l ∈ linspace l h n := by
  rw [linspace, List.mem_map]
  refine ⟨0, List.mem_range.mpr (by omega), ?_⟩
  simp

theorem linspace_high_mem (l h : ℚ) (n : ℕ) (hn : 0 < n) : h ∈ linspace l h n := by
  rw [linspace, List.mem_map]
  refine ⟨n, List.mem_range.mpr (by omega), ?_⟩
  have hne : (n : ℚ) ≠ 0 := by
    have : n ≠ 0 := by omega
    exact_mod_cast this
  field_simp

theorem digitize_le_length (x : ℚ) (bins : List ℚ) :
    digitize x bins ≤ bins.length :=
  List.countP_le_length _

/-- A value below every edge digitizes to the underflow index 0. -/
theorem digitize_eq_zero_of_lt (x : ℚ) (bins : List ℚ)
    (h : ∀ b ∈ bins, x < b) : digitize x bins = 0 := by
  simp only [digitize]
  rw [List.countP_eq_zero]
  intro b hb
  simpa using not_le.mpr (h b hb)

/-- A value at or above every edge digitizes to the overflow index
`bins.length`. -/
theorem digitize_eq_length_of_ge (x : ℚ) (bins : List ℚ)
    (h : ∀ b ∈ bins, b ≤ x) : digitize x bins = bins.length := by
  simp only [digitize]
  rw [List.countP_eq_length]
  intro b hb
  simpa using h b hb

theorem digitize_pos (x b : ℚ) (bins : List ℚ) (hb : b ∈ bins) (hbx : b ≤ x) :
    0 < digitize x bins := by
  simp only [digitize]
  rw [List.countP_pos_iff]
  exact ⟨b, hb, by simpa using hbx⟩

theorem digitize_lt_length (x b : ℚ) (bins : List ℚ) (hb : b ∈ bins)
    (hbx : x < b) : digitize x bins < bins.length := by
  by_contra hcon
  have heq : digitize x bins = bins.length :=
    le_antisymm (digitize_le_length x bins) (not_lt.mp hcon)
  simp only [digitize] at heq
  rw [List.countP_eq_length] at heq
  have := heq b hb
  simp only [decide_eq_true_eq] at this
  exact absurd this (not_le.mpr hbx)

/-- An in-range value digitizes into a regular bin `1 .. n`. -/
theorem digitize_linspace_bounds (l h x : ℚ) (n : ℕ) (hn : 0 < n)
    (hlx : l ≤ x) (hxh : x < h) :
    1 ≤ digitize x (linspace l h n) ∧ digitize x (linspace l h n) ≤ n := by
  constructor
  · exact digitize_pos x l (linspace l h n) (linspace_low_mem l h n) hlx
  · have := digitize_lt_length x h (linspace l h n)
      (linspace_high_mem l h n hn) hxh
    rw [linspace_length] at this
    omega

-- ### Lemmas about npMax

theorem le_npMaxAux : ∀ (l : List ℚ) (x : ℚ), x ≤ npMaxAux x l := by
  intro l
  induction l with
  | nil => intro x; exact le_refl x
  | cons y ys ih =>
      intro x
      simp only [npMaxAux]
      exact le_trans (le_max_left x y) (ih (max x y))

theorem mem_le_npMaxAux : ∀ (l : List ℚ) (x y : ℚ), y ∈ l → y ≤ npMaxAux x l := by
  intro l
  induction l with
  | nil => intro x y hy; simp at hy
  | cons z zs ih =>
      intro x y hy
      simp only [npMaxAux]
      rcases List.mem_cons.mp hy with h1 | h1
      · subst h1
        exact le_trans (le_max_right x y) (le_npMaxAux zs (max x y))
      · exact ih (max x z) y h1

theorem npMaxAux_mem_or : ∀ (l : List ℚ) (x : ℚ), npMaxAux x l = x ∨ npMaxAux x l ∈ l := by
  intro l
  induction l with
  | nil => intro x; exact Or.inl rfl
  | cons y ys ih =>
      intro x
      simp only [npMaxAux]
      rcases ih (max x y) with h1 | h1
      · rcases max_choice x y with h2 | h2
        · exact Or.inl (h1.trans h2)
        · exact Or.inr (List.mem_cons.mpr (Or.inl (h1.trans h2)))
      · exact Or.inr (List.mem_cons_of_mem y h1)

theorem npMax_mem (l : List ℚ) (h : l ≠ []) : npMax l ∈ l := by
  cases l with
  | nil => exact absurd rfl h
  | cons x xs =>
      simp only [npMax]
      rcases npMaxAux_mem_or xs x with h1 | h1
      · rw [h1]; exact List.mem_cons_self x xs
      · exact List.mem_cons_of_mem x h1

theorem le_npMax (l : List ℚ) (y : ℚ) (hy : y ∈ l) : y ≤ npMax l := by
  cases l with
  | nil => simp at hy
  | cons x xs =>
      simp only [npMax]
      rcases List.mem_cons.mp hy with h1 | h1
      · subst h1; exact le_npMaxAux xs y
      · exact mem_le_npMaxAux xs x y h1

theorem abs_npMax_le (B : ℚ) (l : List ℚ) (hB : 0 ≤ B)
    (h : ∀ y ∈ l, |y| ≤ B) : |npMax l| ≤ B := by
  cases l with
  | nil => simpa [npMax] using hB
  | cons x xs =>
      simp only [npMax]
      rcases npMaxAux_mem_or xs x with h1 | h1
      · rw [h1]; exact h x (List.mem_cons_self x xs)
      · rw [show npMaxAux x xs = npMax (x :: xs) from rfl] at h1 ⊢
        exact h _ (List.mem_cons_of_mem x h1)

-- ### Lemmas about the update transformation

theorem set_oob {α : Type} (x : α) :
    ∀ (l : List α) (i : ℕ), l.length ≤ i → l.set i x = l := by
  intro l
  induction l with
  | nil => intro i _; rfl
  | cons a as ih =>
      intro i h
      cases i with
      | zero => simp at h
      | succ j =>
          simp only [List.set_cons_succ]
          rw [ih j (by simpa using h)]

theorem getD_replicate {α : Type} (x d : α) :
    ∀ (n i : ℕ), (List.replicate n x).getD i d = if i < n then x else d := by
  intro n
  induction n with
  | zero => intro i; simp
  | succ m ih =>
      intro i
      cases i with
      | zero => simp [List.replicate]
      | succ j =>
          simp only [List.replicate, List.getD_cons_succ, ih j]
          by_cases h : j < m
          · rw [if_pos h, if_pos (by omega)]
          · rw [if_neg h, if_neg (by omega)]

theorem qcell_zeros (S A s a : ℕ) :
    qcell (List.replicate S (List.replicate A (0 : ℚ))) s a = 0 := by
  unfold qcell
  rw [getD_replicate]
  by_cases h : s < S
  · rw [if_pos h, getD_replicate]
    by_cases h2 : a < A
    · rw [if_pos h2]
    · rw [if_neg h2]
  · rw [if_neg h]
    rfl

theorem buildQLearnPolicy_WF (S A : ℕ) (g al ad e ef : ℚ) :
    (buildQLearnPolicy S A g al ad e ef).WF := by
  constructor
  · simp [buildQLearnPolicy]
  · intro row hrow
    simp only [buildQLearnPolicy] at hrow
    rw [List.eq_of_mem_replicate hrow]
    simp [buildQLearnPolicy]

theorem WF_row_length (p : QLearnPolicy) (hwf : p.WF) (s : ℕ)
    (hs : s < p.n_states) :
    s < p.Q.length ∧ (p.Q.getD s []).length = p.n_actions := by
  have h1 : s < p.Q.length := by rw [hwf.1]; exact hs
  exact ⟨h1, hwf.2 _ (getD_mem_of_lt [] p.Q s h1)⟩

theorem qcell_updateQTable_self (Q : List (List ℚ)) (gamma alpha : ℚ)
    (s a ns : ℕ) (r : ℚ) (dn : Bool)
    (hs : s < Q.length) (ha : a < (Q.getD s []).length) :
    qcell (updateQTable Q gamma alpha s a ns r dn) s a
      = qcell Q s a
        + alpha * ((match dn with
            | true => r
            | false => r + gamma * npMax (Q.getD ns [])) - qcell Q s a) := by
  unfold updateQTable qcell
  rw [getD_set_same [] _ Q s hs]
  rw [getD_set_same 0 _ (Q.getD s []) a ha]

theorem qcell_updateQTable_other (Q : List (List ℚ)) (gamma alpha : ℚ)
    (s a ns : ℕ) (r : ℚ) (dn : Bool) (s1 a1 : ℕ) (h : ¬(s1 = s ∧ a1 = a)) :
    qcell (updateQTable Q gamma alpha s a ns r dn) s1 a1 = qcell Q s1 a1 := by
  unfold updateQTable qcell
  by_cases hss : s1 = s
  · subst hss
    have ha1 : a1 ≠ a := fun he => h ⟨rfl, he⟩
    by_cases hs : s1 < Q.length
    · rw [getD_set_same [] _ Q s1 hs]
      exact getD_set_diff 0 _ (Q.getD s1 []) a a1 (fun he => ha1 he.symm)
    · rw [set_oob _ Q s1 (not_lt.mp hs)]
  · rw [getD_set_diff [] _ Q s s1 (fun he => hss he.symm)]

/-- The terminal-update target never reads `new_state`. -/
theorem updateQTable_terminal_independent (Q : List (List ℚ))
    (gamma alpha : ℚ) (s a ns ns1 : ℕ) (r : ℚ) :
    updateQTable Q gamma alpha s a ns r true
      = updateQTable Q gamma alpha s a ns1 r true := rfl

theorem update_q_value_eq_ok (p : QLearnPolicy) (s a ns : ℕ) (r : ℚ)
    (dn : Bool) (hs : s < p.Q.length) (ha : a < (p.Q.getD s []).length)
    (hns : dn = false → ns < p.Q.length ∧ p.Q.getD ns [] ≠ []) :
    p.update_q_value s a ns r dn
      = Except.ok ⟨p.gamma, p.alpha, p.alpha_decay, p.epsilon, p.epsilon_final,
          p.n_actions, p.n_states,
          updateQTable p.Q p.gamma p.alpha s a ns r dn⟩ := by
  cases dn with
  | true =>
      simp only [QLearnPolicy.update_q_value]
      rw [if_pos ⟨hs, ha⟩]
  | false =>
      simp only [QLearnPolicy.update_q_value]
      rw [if_pos (hns rfl), if_pos ⟨hs, ha⟩]

theorem update_q_value_ok_inv (p : QLearnPolicy) (s a ns : ℕ) (r : ℚ)
    (dn : Bool) (p1 : QLearnPolicy)
    (h : p.update_q_value s a ns r dn = Except.ok p1) :
    p1 = ⟨p.gamma, p.alpha, p.alpha_decay, p.epsilon, p.epsilon_final,
          p.n_actions, p.n_states,
          updateQTable p.Q p.gamma p.alpha s a ns r dn⟩ := by
  cases dn with
  | true =>
      simp only [QLearnPolicy.update_q_value] at h
      by_cases hc : s < p.Q.length ∧ a < (p.Q.getD s []).length
      · rw [if_pos hc] at h
        exact (Except.ok.inj h).symm
      · rw [if_neg hc] at h
        exact Except.noConfusion h
  | false =>
      simp only [QLearnPolicy.update_q_value] at h
      by_cases hc1 : ns < p.Q.length ∧ p.Q.getD ns [] ≠ []
      · rw [if_pos hc1] at h
        by_cases hc : s < p.Q.length ∧ a < (p.Q.getD s []).length
        · rw [if_pos hc] at h
          exact (Except.ok.inj h).symm
        · rw [if_neg hc] at h
          exact Except.noConfusion h
      · rw [if_neg hc1] at h
        exact Except.noConfusion h

theorem qcell_updateQTable_terminal (Q : List (List ℚ)) (gamma alpha : ℚ)
    (s a ns : ℕ) (r : ℚ) (hs : s < Q.length) (ha : a < (Q.getD s []).length) :
    qcell (updateQTable Q gamma alpha s a ns r true) s a
      = qcell Q s a + alpha * (r - qcell Q s a) :=
  qcell_updateQTable_self Q gamma alpha s a ns r true hs ha

theorem qcell_updateQTable_nonterminal (Q : List (List ℚ)) (gamma alpha : ℚ)
    (s a ns : ℕ) (r : ℚ) (hs : s < Q.length) (ha : a < (Q.getD s []).length) :
    qcell (updateQTable Q gamma alpha s a ns r false) s a
      = qcell Q s a + alpha * (r + gamma * npMax (Q.getD ns []) - qcell Q s a) :=
  qcell_updateQTable_self Q gamma alpha s a ns r false hs ha

-- ### Claim theorems

/-- C1: a call to `_update_q_value` with valid `state`/`action` changes the
cell as `Q[s,a] += alpha * (r - Q[s,a])` when `done` is true and as
`Q[s,a] += alpha * (r + gamma * max_a' Q[s',a'] - Q[s,a])` when `done` is
false; in particular, starting from an all-zero table, one terminal update
leaves `Q[s,a]` equal to `alpha * r`. -/
theorem update_q_value_rule (p : QLearnPolicy) (hwf : p.WF) (s a ns : ℕ)
    (r : ℚ) (hs : s < p.n_states) (ha : a < p.n_actions) :
    (∃ p1, p.update_q_value s a ns r true = Except.ok p1 ∧
        qcell p1.Q s a = qcell p.Q s a + p.alpha * (r - qcell p.Q s a)) ∧
    (ns < p.n_states → 0 < p.n_actions →
      ∃ p2, p.update_q_value s a ns r false = Except.ok p2 ∧
        qcell p2.Q s a
          = qcell p.Q s a
            + p.alpha * (r + p.gamma * npMax (p.Q.getD ns []) - qcell p.Q s a)) ∧
    (∃ p3,
      (buildQLearnPolicy p.n_states p.n_actions p.gamma p.alpha p.alpha_decay
          p.epsilon p.epsilon_final).update_q_value s a ns r true
        = Except.ok p3 ∧ qcell p3.Q s a = p.alpha * r) := by
  obtain ⟨hsl, hrl⟩ := WF_row_length p hwf s hs
  have hal : a < (p.Q.getD s []).length := by rw [hrl]; exact ha
  refine ⟨?_, ?_, ?_⟩
  · refine ⟨_, update_q_value_eq_ok p s a ns r true hsl hal
      (fun h => by cases h), ?_⟩
    exact qcell_updateQTable_terminal p.Q p.gamma p.alpha s a ns r hsl hal
  · intro hns hA
    obtain ⟨hnsl, hnrl⟩ := WF_row_length p hwf ns hns
    have hne : p.Q.getD ns [] ≠ [] := by
      intro he
      rw [he] at hnrl
      simp only [List.length_nil] at hnrl
      omega
    refine ⟨_, update_q_value_eq_ok p s a ns r false hsl hal
      (fun _ => ⟨hnsl, hne⟩), ?_⟩
    exact qcell_updateQTable_nonterminal p.Q p.gamma p.alpha s a ns r hsl hal
  · have hwf0 := buildQLearnPolicy_WF p.n_states p.n_actions p.gamma p.alpha
      p.alpha_decay p.epsilon p.epsilon_final
    obtain ⟨hsl0, hrl0⟩ := WF_row_length _ hwf0 s hs
    have hal0 : a < ((buildQLearnPolicy p.n_states p.n_actions p.gamma p.alpha
        p.alpha_decay p.epsilon p.epsilon_final).Q.getD s []).length := by
      rw [hrl0]; exact ha
    refine ⟨_, update_q_value_eq_ok _ s a ns r true hsl0 hal0
      (fun h => by cases h), ?_⟩
    rw [qcell_updateQTable_terminal _ _ _ s a ns r hsl0 hal0]
    have hz : qcell (buildQLearnPolicy p.n_states p.n_actions p.gamma p.alpha
        p.alpha_decay p.epsilon p.epsilon_final).Q s a = 0 :=
      qcell_zeros p.n_states p.n_actions s a
    rw [hz]
    simp only [buildQLearnPolicy]
    ring

/-- Witness for C1 at `pTest`, `s = 0`, `a = 1`, `ns = 1`, `r = 3`. -/
theorem update_q_value_rule_witness :
    pTest.WF ∧ 0 < pTest.n_states ∧ 1 < pTest.n_actions ∧
    ((∃ p1, pTest.update_q_value 0 1 1 3 true = Except.ok p1 ∧
        qcell p1.Q 0 1 = qcell pTest.Q 0 1
          + pTest.alpha * (3 - qcell pTest.Q 0 1)) ∧
     (1 < pTest.n_states → 0 < pTest.n_actions →
       ∃ p2, pTest.update_q_value 0 1 1 3 false = Except.ok p2 ∧
         qcell p2.Q 0 1 = qcell pTest.Q 0 1
           + pTest.alpha * (3 + pTest.gamma * npMax (pTest.Q.getD 1 [])
               - qcell pTest.Q 0 1)) ∧
     (∃ p3,
       (buildQLearnPolicy pTest.n_states pTest.n_actions pTest.gamma
           pTest.alpha pTest.alpha_decay pTest.epsilon
           pTest.epsilon_final).update_q_value 0 1 1 3 true
         = Except.ok p3 ∧ qcell p3.Q 0 1 = pTest.alpha * 3)) :=
  ⟨by decide, by decide, by decide,
    update_q_value_rule pTest (by decide) 0 1 1 3 (by decide) (by decide)⟩

/-- C3: `_convert_to_one_number` combines per-dimension bin indices
`d_0 .. d_{k-1}` into the single integer `Σ dᵢ · (n_bins+2)^i`, with
dimension 0 as the least-significant digit of the mixed-radix encoding. -/
theorem convert_combines_digits_mixed_radix
    (w : DiscretizedObservationWrapper) (ds : List ℕ) :
    w.convert_to_one_number ds
      = Finset.sum (Finset.range ds.length)
          (fun i => ds.getD i 0 * (w.n_bins + 2) ^ i)
    ∧ ∀ (d : ℕ) (tl : List ℕ),
        w.convert_to_one_number (d :: tl)
          = d + (w.n_bins + 2) * w.convert_to_one_number tl :=
  ⟨convert_to_one_number_eq_sum w ds,
    fun d tl => convert_to_one_number_cons w d tl⟩

/-- C9: `_update_q_value` with valid `state`/`action` changes no value-table
cell other than `(state, action)` and leaves `gamma`, `alpha` and `epsilon`
unchanged; when `done` is true the result is independent of `new_state`
(the row `Q[new_state, :]` is never read), so a terminal update succeeds for
any `new_state` value. -/
theorem update_q_value_frame (p : QLearnPolicy) (hwf : p.WF) (s a ns : ℕ)
    (r : ℚ) (hs : s < p.n_states) (ha : a < p.n_actions) :
    (∀ ns1, p.update_q_value s a ns r true = p.update_q_value s a ns1 r true) ∧
    (∃ p1, p.update_q_value s a ns r true = Except.ok p1) ∧
    (∀ (dn : Bool) (p1 : QLearnPolicy),
      p.update_q_value s a ns r dn = Except.ok p1 →
      p1.gamma = p.gamma ∧ p1.alpha = p.alpha ∧ p1.epsilon = p.epsilon ∧
      ∀ s1 a1, ¬(s1 = s ∧ a1 = a) → qcell p1.Q s1 a1 = qcell p.Q s1 a1) := by
  obtain ⟨hsl, hrl⟩ := WF_row_length p hwf s hs
  have hal : a < (p.Q.getD s []).length := by rw [hrl]; exact ha
  refine ⟨?_, ?_, ?_⟩
  · intro ns1
    rw [update_q_value_eq_ok p s a ns r true hsl hal (fun h => by cases h),
      update_q_value_eq_ok p s a ns1 r true hsl hal (fun h => by cases h),
      updateQTable_terminal_independent p.Q p.gamma p.alpha s a ns ns1 r]
  · exact ⟨_, update_q_value_eq_ok p s a ns r true hsl hal
      (fun h => by cases h)⟩
  · intro dn p1 h
    rw [update_q_value_ok_inv p s a ns r dn p1 h]
    refine ⟨rfl, rfl, rfl, ?_⟩
    intro s1 a1 hne
    exact qcell_updateQTable_other p.Q p.gamma p.alpha s a ns r dn s1 a1 hne

/-- Witness for C9 at `pTest`, `s = 0`, `a = 0`, `ns = 7` (out of range, yet
the terminal update succeeds), `r = 2`. -/
theorem update_q_value_frame_witness :
    pTest.WF ∧ 0 < pTest.n_states ∧ 0 < pTest.n_actions ∧
    ((∀ ns1, pTest.update_q_value 0 0 7 2 true
        = pTest.update_q_value 0 0 ns1 2 true) ∧
     (∃ p1, pTest.update_q_value 0 0 7 2 true = Except.ok p1) ∧
     (∀ (dn : Bool) (p1 : QLearnPolicy),
       pTest.update_q_value 0 0 7 2 dn = Except.ok p1 →
       p1.gamma = pTest.gamma ∧ p1.alpha = pTest.alpha ∧
       p1.epsilon = pTest.epsilon ∧
       ∀ s1 a1, ¬(s1 = 0 ∧ a1 = 0) →
         qcell p1.Q s1 a1 = qcell pTest.Q s1 a1)) :=
  ⟨by decide, by decide, by decide,
    update_q_value_frame pTest (by decide) 0 0 7 2 (by decide) (by decide)⟩

theorem getD_oob {α : Type} (d : α) :
    ∀ (l : List α) (i : ℕ), l.length ≤ i → l.getD i d = d := by
  intro l
  induction l with
  | nil => intro i _; rfl
  | cons a as ih =>
      intro i h
      cases i with
      | zero => simp at h
      | succ j =>
          simp only [List.getD_cons_succ]
          exact ih j (by simpa using h)

theorem getD_eq_get {α : Type} (d : α) :
    ∀ (l : List α) (i : ℕ) (h : i < l.length), l.getD i d = l.get ⟨i, h⟩ := by
  intro l
  induction l with
  | nil => intro i h; simp at h
  | cons a as ih =>
      intro i h
      cases i with
      | zero => rfl
      | succ j =>
          simp only [List.getD_cons_succ]
          exact ih j (by simpa using h)

theorem mem_zipWith {α β γ : Type} (f : α → β → γ) :
    ∀ (l1 : List α) (l2 : List β) (c : γ), c ∈ List.zipWith f l1 l2 →
      ∃ x y, x ∈ l1 ∧ y ∈ l2 ∧ c = f x y := by
  intro l1
  induction l1 with
  | nil => intro l2 c h; simp at h
  | cons a as ih =>
      intro l2 c h
      cases l2 with
      | nil => simp at h
      | cons b bs =>
          rcases List.mem_cons.mp h with h1 | h1
          · exact ⟨a, b, List.mem_cons_self _ _, List.mem_cons_self _ _, h1⟩
          · obtain ⟨x, y, hx, hy, he⟩ := ih bs c h1
            exact ⟨x, y, List.mem_cons_of_mem a hx,
              List.mem_cons_of_mem b hy, he⟩

-- ### The epsilon decay schedule

/-- Closed form for the epsilon trajectory of `train`: after `M` episodes
epsilon equals `max epsilon_final (epsilon0 - M * drop)`. -/
theorem trainEpsilonAfter_eq_max (e0 ef : ℚ) (n : ℕ) (hef : ef ≤ e0)
    (hn : 0 < n) :
    ∀ M : ℕ, trainEpsilonAfter e0 ef n M
      = max ef (e0 - (M : ℚ) * ((e0 - ef) / (n : ℚ))) := by
  have hnq : (0 : ℚ) < (n : ℚ) := by exact_mod_cast hn
  have hne : (n : ℚ) ≠ 0 := ne_of_gt hnq
  have hdrop : (0 : ℚ) ≤ (e0 - ef) / (n : ℚ) :=
    div_nonneg (by linarith) (le_of_lt hnq)
  have hnd : (n : ℚ) * ((e0 - ef) / (n : ℚ)) = e0 - ef := by field_simp
  intro M
  induction M with
  | zero =>
      simp only [trainEpsilonAfter, Nat.cast_zero, zero_mul, sub_zero]
      exact (max_eq_right hef).symm
  | succ M ih =>
      simp only [trainEpsilonAfter, ih, trainEpsilonStep]
      push_cast
      by_cases hcase : ef < e0 - (M : ℚ) * ((e0 - ef) / (n : ℚ))
      · rw [max_eq_right (le_of_lt hcase), if_pos hcase]
        have hgoal : ef ≤ e0 - ((M : ℚ) + 1) * ((e0 - ef) / (n : ℚ)) := by
          rcases eq_or_lt_of_le hdrop with hz | hpos
          · rw [← hz]
            simp only [mul_zero, sub_zero]
            exact hef
          · have h1 : (M : ℚ) * ((e0 - ef) / (n : ℚ))
                < (n : ℚ) * ((e0 - ef) / (n : ℚ)) := by
              rw [hnd]
              linarith
            have h2 : (M : ℚ) < (n : ℚ) := (mul_lt_mul_right hpos).mp h1
            have h3 : M < n := by exact_mod_cast h2
            have h4 : M + 1 ≤ n := h3
            have h5 : ((M : ℚ) + 1) ≤ (n : ℚ) := by exact_mod_cast h4
            have h6 : ((M : ℚ) + 1) * ((e0 - ef) / (n : ℚ))
                ≤ (n : ℚ) * ((e0 - ef) / (n : ℚ)) :=
              mul_le_mul_of_nonneg_right h5 hdrop
            rw [hnd] at h6
            linarith
        rw [max_eq_right hgoal]
        ring
      · have hle : e0 - (M : ℚ) * ((e0 - ef) / (n : ℚ)) ≤ ef := not_lt.mp hcase
        rw [max_eq_left hle, if_neg (lt_irrefl ef)]
        have hexp : ((M : ℚ) + 1) * ((e0 - ef) / (n : ℚ))
            = (M : ℚ) * ((e0 - ef) / (n : ℚ)) + (e0 - ef) / (n : ℚ) := by ring
        have hle2 : e0 - ((M : ℚ) + 1) * ((e0 - ef) / (n : ℚ)) ≤ ef := by
          rw [hexp]
          linarith
        rw [max_eq_left hle2]

/-- C2: during `train(n_episodes)` started with epsilon `e0` and floor
`epsilon_final ≤ e0`, after any `N ≤ n_episodes` completed episodes the
agent's epsilon equals
`max epsilon_final (e0 - N * (e0 - epsilon_final) / n_episodes)`, and
epsilon never drops strictly below `epsilon_final` at any point. -/
theorem train_epsilon_decay (e0 ef : ℚ) (n N : ℕ) (hef : ef ≤ e0)
    (hn : 0 < n) (hN : N ≤ n) :
    trainEpsilonAfter e0 ef n N
      = max ef (e0 - (N : ℚ) * ((e0 - ef) / (n : ℚ)))
    ∧ ∀ M : ℕ, ef ≤ trainEpsilonAfter e0 ef n M := by
  refine ⟨trainEpsilonAfter_eq_max e0 ef n hef hn N, ?_⟩
  intro M
  rw [trainEpsilonAfter_eq_max e0 ef n hef hn M]
  exact le_max_left _ _

/-- Witness for C2 at `e0 = 1`, `epsilon_final = 1/20`, `n_episodes = 10`,
`N = 3`. -/
theorem train_epsilon_decay_witness :
    (1/20 : ℚ) ≤ 1 ∧ (0 : ℕ) < 10 ∧ (3 : ℕ) ≤ 10 ∧
    (trainEpsilonAfter 1 (1/20) 10 3
        = max (1/20) (1 - ((3 : ℕ) : ℚ) * ((1 - 1/20) / ((10 : ℕ) : ℚ)))
      ∧ ∀ M : ℕ, (1/20 : ℚ) ≤ trainEpsilonAfter 1 (1/20) 10 M) :=
  ⟨by norm_num, by norm_num, by norm_num,
    train_epsilon_decay 1 (1/20) 10 3 (by norm_num) (by norm_num)
      (by norm_num)⟩

-- ### Discretizer claims

/-- C5: digitization follows the first-edge-strictly-greater rule: an
observation whose dimension-0 component equals `low[0] - 100` (below the
first edge) receives bin index 0 in that dimension, and one whose
dimension-0 component equals `high[0] + 100` (above the last edge) receives
bin index `n_bins + 1`. -/
theorem outlier_bins (low high raw : List ℚ) (n_bins : ℕ)
    (hlow : 0 < low.length) (hhigh : 0 < high.length)
    (hraw : 0 < raw.length)
    (hlh : low.getD 0 0 ≤ high.getD 0 0) :
    (raw.getD 0 0 = low.getD 0 0 - 100 →
      ((buildDiscretizedObservationWrapper low high n_bins).digitsOf
          raw).getD 0 0 = 0) ∧
    (raw.getD 0 0 = high.getD 0 0 + 100 →
      ((buildDiscretizedObservationWrapper low high n_bins).digitsOf
          raw).getD 0 0 = n_bins + 1) := by
  have hvbl : (buildDiscretizedObservationWrapper low high n_bins).val_bins.length
      = min low.length high.length := by
    simp [buildDiscretizedObservationWrapper, List.length_zipWith]
  have hvb0 : 0 < (buildDiscretizedObservationWrapper low high n_bins).val_bins.length := by
    rw [hvbl]
    omega
  have hd0 : ((buildDiscretizedObservationWrapper low high n_bins).digitsOf
      raw).getD 0 0
      = digitize (raw.getD 0 0)
          ((buildDiscretizedObservationWrapper low high n_bins).val_bins.getD
            0 []) := by
    simp only [DiscretizedObservationWrapper.digitsOf]
    exact zipWith_getD digitize 0 [] 0 raw _ 0 hraw hvb0
  have hbin0 : (buildDiscretizedObservationWrapper low high n_bins).val_bins.getD 0 []
      = linspace (low.getD 0 0) (high.getD 0 0) n_bins := by
    simp only [buildDiscretizedObservationWrapper]
    exact zipWith_getD (fun l h => linspace l h n_bins) 0 0 [] low high 0
      hlow hhigh
  constructor
  · intro heq
    rw [hd0, hbin0, heq]
    apply digitize_eq_zero_of_lt
    intro b hb
    have := (linspace_mem_bounds _ _ n_bins hlh b hb).1
    linarith
  · intro heq
    rw [hd0, hbin0, heq]
    rw [digitize_eq_length_of_ge _ _ ?_, linspace_length]
    intro b hb
    have := (linspace_mem_bounds _ _ n_bins hlh b hb).2
    linarith

/-- Witness for C5 with bounds `[0,0]`/`[1,2]`, `n_bins = 8`, observation
`[-100, 0]` (dimension 0 equals `low[0] - 100`). -/
theorem outlier_bins_witness :
    0 < ([0, 0] : List ℚ).length ∧ 0 < ([1, 2] : List ℚ).length ∧
    0 < ([-100, 0] : List ℚ).length ∧
    ([0, 0] : List ℚ).getD 0 0 ≤ ([1, 2] : List ℚ).getD 0 0 ∧
    ((([-100, 0] : List ℚ).getD 0 0 = ([0, 0] : List ℚ).getD 0 0 - 100 →
       ((buildDiscretizedObservationWrapper [0, 0] [1, 2] 8).digitsOf
           [-100, 0]).getD 0 0 = 0) ∧
     (([-100, 0] : List ℚ).getD 0 0 = ([1, 2] : List ℚ).getD 0 0 + 100 →
       ((buildDiscretizedObservationWrapper [0, 0] [1, 2] 8).digitsOf
           [-100, 0]).getD 0 0 = 8 + 1)) :=
  ⟨by decide, by decide, by decide, by decide,
    outlier_bins [0, 0] [1, 2] [-100, 0] 8 (by decide) (by decide)
      (by decide) (by decide)⟩

/-- Every digit produced by `digitsOf` is at most `n_bins + 1`, hence below
the base `n_bins + 2`. -/
theorem digitsOf_lt_base (low high : List ℚ) (n_bins : ℕ) (raw : List ℚ) :
    ∀ d ∈ (buildDiscretizedObservationWrapper low high n_bins).digitsOf raw,
      d < n_bins + 2 := by
  intro d hd
  simp only [DiscretizedObservationWrapper.digitsOf] at hd
  obtain ⟨x, bins, hx, hbins, rfl⟩ := mem_zipWith digitize raw _ d hd
  simp only [buildDiscretizedObservationWrapper] at hbins
  obtain ⟨lo, hi, hlo, hhi, rfl⟩ :=
    mem_zipWith (fun l h => linspace l h n_bins) low high bins hbins
  have h1 := digitize_le_length x (linspace lo hi n_bins)
  rw [linspace_length] at h1
  omega

/-- C6: `observation` is total: for every input vector of the wrapper's
dimensionality, whatever its component values, the returned state lies in
`[0, (n_bins+2)^d - 1]`. -/
theorem observation_range (low high : List ℚ) (n_bins : ℕ) (raw : List ℚ)
    (hlen1 : raw.length = low.length) (hlen2 : high.length = low.length) :
    (buildDiscretizedObservationWrapper low high n_bins).observation raw
      < (n_bins + 2) ^ low.length := by
  have hvbl : (buildDiscretizedObservationWrapper low high n_bins).val_bins.length
      = low.length := by
    simp [buildDiscretizedObservationWrapper, List.length_zipWith, hlen2]
  have hdl : ((buildDiscretizedObservationWrapper low high n_bins).digitsOf
      raw).length = low.length := by
    simp only [DiscretizedObservationWrapper.digitsOf, List.length_zipWith,
      hvbl, hlen1]
    omega
  have hbound := convert_to_one_number_lt
    (buildDiscretizedObservationWrapper low high n_bins)
    ((buildDiscretizedObservationWrapper low high n_bins).digitsOf raw)
    (digitsOf_lt_base low high n_bins raw)
  rw [hdl] at hbound
  exact hbound

/-- Witness for C6 with bounds `[0,0]`/`[1,2]`, `n_bins = 8` and the extreme
observation `[100, -5]` (both components far out of range). -/
theorem observation_range_witness :
    ([100, -5] : List ℚ).length = ([0, 0] : List ℚ).length ∧
    ([1, 2] : List ℚ).length = ([0, 0] : List ℚ).length ∧
    (buildDiscretizedObservationWrapper [0, 0] [1, 2] 8).observation
        [100, -5]
      < (8 + 2) ^ ([0, 0] : List ℚ).length :=
  ⟨by decide, by decide,
    observation_range [0, 0] [1, 2] 8 [100, -5] (by decide) (by decide)⟩

/-- C4: with `n_bins = 8`, for every observation whose every component lies
in `[low[i], high[i])`, decoding the produced state by repeated division and
modulo by the base `n_bins + 2 = 10` recovers the per-dimension bin indices,
and each recovered index lies in `[1, 8]`. -/
theorem discretizer_roundtrip (low high raw : List ℚ)
    (hlen1 : raw.length = low.length) (hlen2 : high.length = low.length)
    (hin : ∀ i, i < raw.length →
      low.getD i 0 ≤ raw.getD i 0 ∧ raw.getD i 0 < high.getD i 0) :
    decodeState (8 + 2) raw.length
        ((buildDiscretizedObservationWrapper low high 8).observation raw)
      = (buildDiscretizedObservationWrapper low high 8).digitsOf raw
    ∧ ∀ i, i < raw.length →
        1 ≤ ((buildDiscretizedObservationWrapper low high 8).digitsOf
            raw).getD i 0
        ∧ ((buildDiscretizedObservationWrapper low high 8).digitsOf
            raw).getD i 0 ≤ 8 := by
  have hvbl : (buildDiscretizedObservationWrapper low high 8).val_bins.length
      = low.length := by
    simp [buildDiscretizedObservationWrapper, List.length_zipWith, hlen2]
  have hdl : ((buildDiscretizedObservationWrapper low high 8).digitsOf
      raw).length = raw.length := by
    simp only [DiscretizedObservationWrapper.digitsOf, List.length_zipWith,
      hvbl, hlen1]
    omega
  have hdig : ∀ i, i < raw.length →
      ((buildDiscretizedObservationWrapper low high 8).digitsOf raw).getD i 0
        = digitize (raw.getD i 0)
            (linspace (low.getD i 0) (high.getD i 0) 8) := by
    intro i hi
    have h2 : i < (buildDiscretizedObservationWrapper low high 8).val_bins.length := by
      rw [hvbl, ← hlen1]
      exact hi
    have h3 := zipWith_getD digitize 0 [] 0 raw
      (buildDiscretizedObservationWrapper low high 8).val_bins i hi h2
    have h4 : (buildDiscretizedObservationWrapper low high 8).val_bins.getD i []
        = linspace (low.getD i 0) (high.getD i 0) 8 := by
      simp only [buildDiscretizedObservationWrapper]
      exact zipWith_getD (fun l h => linspace l h 8) 0 0 [] low high i
        (by rw [← hlen1]; exact hi) (by rw [hlen2, ← hlen1]; exact hi)
    simp only [DiscretizedObservationWrapper.digitsOf]
    rw [h3, h4]
  constructor
  · have h := decode_convert (buildDiscretizedObservationWrapper low high 8)
      ((buildDiscretizedObservationWrapper low high 8).digitsOf raw)
      (digitsOf_lt_base low high 8 raw)
    rw [hdl] at h
    exact h
  · intro i hi
    rw [hdig i hi]
    exact digitize_linspace_bounds (low.getD i 0) (high.getD i 0)
      (raw.getD i 0) 8 (by omega) (hin i hi).1 (hin i hi).2

/-- Witness for C4 with bounds `[0,0]`/`[2,4]`, `n_bins = 8` and the
in-range observation `[1, 1]`. -/
theorem discretizer_roundtrip_witness :
    ([1, 1] : List ℚ).length = ([0, 0] : List ℚ).length ∧
    ([2, 4] : List ℚ).length = ([0, 0] : List ℚ).length ∧
    (∀ i, i < ([1, 1] : List ℚ).length →
      ([0, 0] : List ℚ).getD i 0 ≤ ([1, 1] : List ℚ).getD i 0 ∧
      ([1, 1] : List ℚ).getD i 0 < ([2, 4] : List ℚ).getD i 0) ∧
    (decodeState (8 + 2) ([1, 1] : List ℚ).length
        ((buildDiscretizedObservationWrapper [0, 0] [2, 4] 8).observation
          [1, 1])
      = (buildDiscretizedObservationWrapper [0, 0] [2, 4] 8).digitsOf
          [1, 1]
    ∧ ∀ i, i < ([1, 1] : List ℚ).length →
        1 ≤ ((buildDiscretizedObservationWrapper [0, 0] [2, 4] 8).digitsOf
            [1, 1]).getD i 0
        ∧ ((buildDiscretizedObservationWrapper [0, 0] [2, 4] 8).digitsOf
            [1, 1]).getD i 0 ≤ 8) :=
  ⟨by decide, by decide, by decide,
    discretizer_roundtrip [0, 0] [2, 4] [1, 1] (by decide) (by decide)
      (by decide)⟩

-- ### Action selection

/-- C7: every `act` call that does not take the exploration branch (in
particular any call with `training = false`, or with `epsilon = 0`) returns
a member of the set of actions achieving `max_a Q[state, a]` — the tie set
computed with exact equality, the pick decided by the random draw — and not
necessarily the lowest-index maximiser: on the all-zero two-action table of
`pTest` the draw `randT = 1` selects action 1. -/
theorem act_exploit (p : QLearnPolicy) (hwf : p.WF) (s : ℕ)
    (hs : s < p.n_states) (hA : 0 < p.n_actions) (training : Bool)
    (randE : ℚ) (randA randT : ℕ)
    (hnoexp : ¬(training = true ∧ 0 < p.epsilon ∧ randE < p.epsilon)) :
    (p.act s training randE randA randT ∈ p.actions_with_max_q s ∧
     p.act s training randE randA randT < p.n_actions ∧
     (p.Q.getD s []).getD (p.act s training randE randA randT) 0
       = npMax (p.Q.getD s []) ∧
     ∀ a, a < p.n_actions →
       (p.Q.getD s []).getD a 0
         ≤ (p.Q.getD s []).getD (p.act s training randE randA randT) 0) ∧
    pTest.act 0 false 0 0 1 = 1 := by
  obtain ⟨hsl, hrl⟩ := WF_row_length p hwf s hs
  have hrow_ne : p.Q.getD s [] ≠ [] := by
    intro he
    rw [he] at hrl
    simp only [List.length_nil] at hrl
    omega
  have hmem := npMax_mem (p.Q.getD s []) hrow_ne
  obtain ⟨⟨i, hi⟩, hieq⟩ := List.mem_iff_get.mp hmem
  have hiA : i < p.n_actions := by rw [← hrl]; exact hi
  have himem : i ∈ p.actions_with_max_q s := by
    simp only [QLearnPolicy.actions_with_max_q]
    rw [List.mem_filter]
    refine ⟨List.mem_range.mpr hiA, ?_⟩
    simp only [decide_eq_true_eq]
    rw [getD_eq_get 0 _ i hi]
    exact hieq
  have hlen_pos : 0 < (p.actions_with_max_q s).length :=
    List.length_pos.mpr (fun he => by rw [he] at himem; simp at himem)
  have hact : p.act s training randE randA randT
      = npRandomChoice (p.actions_with_max_q s) randT := by
    simp only [QLearnPolicy.act]
    rw [if_neg hnoexp]
  rw [hact]
  set c := npRandomChoice (p.actions_with_max_q s) randT
  have hchoice_mem : c ∈ p.actions_with_max_q s := by
    show npRandomChoice (p.actions_with_max_q s) randT ∈ p.actions_with_max_q s
    unfold npRandomChoice
    exact getD_mem_of_lt 0 _ _ (Nat.mod_lt _ hlen_pos)
  have hprops := hchoice_mem
  simp only [QLearnPolicy.actions_with_max_q, List.mem_filter,
    List.mem_range, decide_eq_true_eq] at hprops
  refine ⟨⟨hchoice_mem, hprops.1, hprops.2, ?_⟩, by decide⟩
  intro a ha
  have haa : a < (p.Q.getD s []).length := by rw [hrl]; exact ha
  rw [hprops.2, getD_eq_get 0 _ a haa]
  exact le_npMax _ _ (List.get_mem _ _ haa)

/-- Witness for C7 at `pTest`, `s = 0`, `training = false`. -/
theorem act_exploit_witness :
    pTest.WF ∧ 0 < pTest.n_states ∧ 0 < pTest.n_actions ∧
    ¬(false = true ∧ 0 < pTest.epsilon ∧ (0 : ℚ) < pTest.epsilon) ∧
    ((pTest.act 0 false 0 0 1 ∈ pTest.actions_with_max_q 0 ∧
      pTest.act 0 false 0 0 1 < pTest.n_actions ∧
      (pTest.Q.getD 0 []).getD (pTest.act 0 false 0 0 1) 0
        = npMax (pTest.Q.getD 0 []) ∧
      ∀ a, a < pTest.n_actions →
        (pTest.Q.getD 0 []).getD a 0
          ≤ (pTest.Q.getD 0 []).getD (pTest.act 0 false 0 0 1) 0) ∧
     pTest.act 0 false 0 0 1 = 1) :=
  ⟨by decide, by decide, by decide, by decide,
    act_exploit pTest (by decide) 0 (by decide) (by decide) false 0 0 1
      (by decide)⟩

-- ### Construction behaviour

/-- C8 counterexample: construction does NOT fail on invalid
hyperparameters.  `DiscretizedObservationWrapper.__init__` with `n_bins = 0`
and bound vectors of mismatched lengths returns a fully formed wrapper
(`zip` silently truncates), and `QLearnPolicy.__init__` with `gamma = 2` and
`epsilon = 5` (both outside `[0,1]`) returns a fully formed policy whose
zero table accepts updates. -/
theorem construction_invalid_ok :
    (mkDiscretizedObservationWrapper [0, 0] [1] 0).isOk = true ∧
    mkDiscretizedObservationWrapper [0, 0] [1] 0
      = Except.ok (buildDiscretizedObservationWrapper [0, 0] [1] 0) ∧
    (buildDiscretizedObservationWrapper [0, 0] [1] 0).val_bins.length = 1 ∧
    (mkQLearnPolicy 2 2 2 (1/2) 1 5 (1/20)).isOk = true ∧
    mkQLearnPolicy 2 2 2 (1/2) 1 5 (1/20)
      = Except.ok (buildQLearnPolicy 2 2 2 (1/2) 1 5 (1/20)) ∧
    (buildQLearnPolicy 2 2 2 (1/2) 1 5 (1/20)).Q = [[0, 0], [0, 0]] ∧
    ((buildQLearnPolicy 2 2 2 (1/2) 1 5 (1/20)).update_q_value
        0 0 0 1 true).isOk = true :=
  ⟨rfl, rfl, by decide, rfl, rfl, by decide, by decide⟩

/-- C8 (amended): construction never fails on hyperparameter values.  The
only construction-time checks in the source are the space-type assertions;
any `gamma`/`epsilon`, any `n_bins`, and bound vectors of mismatched lengths
(silently truncated by `zip`) all yield a constructed object. -/
theorem construction_always_ok (low high : List ℚ) (n_bins : ℕ)
    (S A : ℕ) (gamma alpha alpha_decay epsilon epsilon_final : ℚ) :
    mkDiscretizedObservationWrapper low high n_bins
      = Except.ok (buildDiscretizedObservationWrapper low high n_bins) ∧
    mkQLearnPolicy S A gamma alpha alpha_decay epsilon epsilon_final
      = Except.ok
          (buildQLearnPolicy S A gamma alpha alpha_decay epsilon
            epsilon_final) :=
  ⟨rfl, rfl⟩

-- ### Boundedness of the value table

theorem table_bound_preserved (B : ℚ)
    (Q : List (List ℚ)) (hQ : ∀ row ∈ Q, ∀ x ∈ row, |x| ≤ B)
    (s a : ℕ) (v : ℚ) (hv : |v| ≤ B) :
    ∀ row ∈ Q.set s ((Q.getD s []).set a v), ∀ x ∈ row, |x| ≤ B := by
  intro row hrow x hx
  rcases mem_of_mem_set row Q s _ hrow with h1 | h1
  · exact hQ row h1 x hx
  · subst h1
    rcases mem_of_mem_set x (Q.getD s []) a v hx with h2 | h2
    · by_cases hs : s < Q.length
      · exact hQ _ (getD_mem_of_lt [] Q s hs) x h2
      · rw [getD_oob [] Q s (not_lt.mp hs)] at h2
        simp at h2
    · subst h2
      exact hv

/-- A bounded-row lookup: every row obtained by `getD` from a bounded table
has bounded entries (the default `[]` vacuously so). -/
theorem getD_row_bound (B : ℚ) (Q : List (List ℚ))
    (hQ : ∀ row ∈ Q, ∀ x ∈ row, |x| ≤ B) (s : ℕ) :
    ∀ x ∈ Q.getD s [], |x| ≤ B := by
  by_cases hs : s < Q.length
  · exact hQ _ (getD_mem_of_lt [] Q s hs)
  · rw [getD_oob [] Q s (not_lt.mp hs)]
    intro x hx
    simp at hx

/-- The arithmetic core of the bound: a convex step toward a bounded target
stays bounded. -/
theorem updateQTable_cell_bound (B alpha q t : ℚ) (ha0 : 0 < alpha)
    (ha1 : alpha ≤ 1) (hq : |q| ≤ B) (ht : |t| ≤ B) :
    |q + alpha * (t - q)| ≤ B := by
  have heq : q + alpha * (t - q) = (1 - alpha) * q + alpha * t := by ring
  rw [heq]
  calc |(1 - alpha) * q + alpha * t|
      ≤ |(1 - alpha) * q| + |alpha * t| := abs_add _ _
    _ = (1 - alpha) * |q| + alpha * |t| := by
        rw [abs_mul, abs_mul,
          abs_of_nonneg (by linarith : (0 : ℚ) ≤ 1 - alpha),
          abs_of_nonneg (le_of_lt ha0)]
    _ ≤ (1 - alpha) * B + alpha * B :=
        add_le_add (mul_le_mul_of_nonneg_left hq (by linarith))
          (mul_le_mul_of_nonneg_left ht (le_of_lt ha0))
    _ = B := by ring

/-- One `_update_q_value` table transformation preserves the bound
`|Q[s,a]| ≤ R / (1 - gamma)`. -/
theorem updateQTable_bound (R gamma alpha : ℚ) (hR : 0 ≤ R)
    (hg0 : 0 ≤ gamma) (hg1 : gamma < 1) (ha0 : 0 < alpha) (ha1 : alpha ≤ 1)
    (Q : List (List ℚ)) (hQ : ∀ row ∈ Q, ∀ x ∈ row, |x| ≤ R / (1 - gamma))
    (s a ns : ℕ) (r : ℚ) (hr : |r| ≤ R) (dn : Bool) :
    ∀ row ∈ updateQTable Q gamma alpha s a ns r dn, ∀ x ∈ row,
      |x| ≤ R / (1 - gamma) := by
  have h1g : (0 : ℚ) < 1 - gamma := by linarith
  have hBnn : (0 : ℚ) ≤ R / (1 - gamma) := div_nonneg hR (le_of_lt h1g)
  have hRB : R ≤ R / (1 - gamma) := by
    rw [le_div_iff₀ h1g]
    nlinarith
  have hq : |(Q.getD s []).getD a 0| ≤ R / (1 - gamma) := by
    by_cases ha : a < (Q.getD s []).length
    · exact getD_row_bound _ Q hQ s _ (getD_mem_of_lt 0 _ a ha)
    · rw [getD_oob 0 _ a (not_lt.mp ha)]
      simpa using hBnn
  cases dn with
  | true =>
      simp only [updateQTable]
      exact table_bound_preserved _ Q hQ s a _
        (updateQTable_cell_bound _ alpha _ _ ha0 ha1 hq (le_trans hr hRB))
  | false =>
      have hm : |npMax (Q.getD ns [])| ≤ R / (1 - gamma) :=
        abs_npMax_le _ _ hBnn (getD_row_bound _ Q hQ ns)
      have hsum : R + gamma * (R / (1 - gamma)) = R / (1 - gamma) := by
        field_simp
        ring
      have htb : |r + gamma * npMax (Q.getD ns [])| ≤ R / (1 - gamma) := by
        calc |r + gamma * npMax (Q.getD ns [])|
            ≤ |r| + |gamma * npMax (Q.getD ns [])| := abs_add _ _
          _ = |r| + gamma * |npMax (Q.getD ns [])| := by
              rw [abs_mul, abs_of_nonneg hg0]
          _ ≤ R + gamma * (R / (1 - gamma)) :=
              add_le_add hr (mul_le_mul_of_nonneg_left hm hg0)
          _ = R / (1 - gamma) := hsum
      simp only [updateQTable]
      exact table_bound_preserved _ Q hQ s a _
        (updateQTable_cell_bound _ alpha _ _ ha0 ha1 hq htb)

/-- The bound is preserved by any finite sequence of update calls. -/
theorem applyUpdates_bound (R gamma : ℚ) (hR : 0 ≤ R) (hg0 : 0 ≤ gamma)
    (hg1 : gamma < 1) :
    ∀ (calls : List UpdateCall) (Q : List (List ℚ)),
      (∀ row ∈ Q, ∀ x ∈ row, |x| ≤ R / (1 - gamma)) →
      (∀ c ∈ calls, |c.reward| ≤ R ∧ 0 < c.alpha ∧ c.alpha ≤ 1) →
      ∀ row ∈ applyUpdates gamma Q calls, ∀ x ∈ row,
        |x| ≤ R / (1 - gamma) := by
  intro calls
  induction calls with
  | nil => intro Q hQ _; exact hQ
  | cons c cs ih =>
      intro Q hQ hc
      have hc0 := hc c (List.mem_cons_self c cs)
      simp only [applyUpdates]
      exact ih _
        (updateQTable_bound R gamma c.alpha hR hg0 hg1 hc0.2.1 hc0.2.2 Q hQ
          c.state c.action c.new_state c.reward hc0.1 c.done)
        (fun d hd => hc d (List.mem_cons_of_mem c hd))

/-- C10: if `gamma ∈ [0,1)`, every cell of the table satisfies
`|Q[s,a]| ≤ R / (1 - gamma)` initially, and every update call uses a
learning rate in `(0,1]` and a reward with `|reward| ≤ R`, then after any
finite sequence of update calls every cell still satisfies
`|Q[s,a]| ≤ R / (1 - gamma)`. -/
theorem q_table_bound_invariant (R gamma : ℚ) (hR : 0 ≤ R)
    (hg0 : 0 ≤ gamma) (hg1 : gamma < 1) (Q : List (List ℚ))
    (hQ : ∀ row ∈ Q, ∀ x ∈ row, |x| ≤ R / (1 - gamma))
    (calls : List UpdateCall)
    (hc : ∀ c ∈ calls, |c.reward| ≤ R ∧ 0 < c.alpha ∧ c.alpha ≤ 1) :
    ∀ row ∈ applyUpdates gamma Q calls, ∀ x ∈ row,
      |x| ≤ R / (1 - gamma) :=
  applyUpdates_bound R gamma hR hg0 hg1 calls Q hQ hc

/-- Witness for C10: `R = 1`, `gamma = 0`, the zero table of `pTest`, and
two updates (one non-terminal, one terminal with a negative reward). -/
theorem q_table_bound_invariant_witness :
    (0 : ℚ) ≤ 1 ∧ (0 : ℚ) ≤ 0 ∧ (0 : ℚ) < 1 ∧
    (∀ row ∈ pTest.Q, ∀ x ∈ row, |x| ≤ 1 / (1 - 0)) ∧
    (∀ c ∈ [UpdateCall.mk 0 0 1 1 1 false, UpdateCall.mk 0 1 0 (-1) 1 true],
      |c.reward| ≤ 1 ∧ 0 < c.alpha ∧ c.alpha ≤ 1) ∧
    ∀ row ∈ applyUpdates 0 pTest.Q
        [UpdateCall.mk 0 0 1 1 1 false, UpdateCall.mk 0 1 0 (-1) 1 true],
      ∀ x ∈ row, |x| ≤ 1 / (1 - 0) :=
  ⟨by norm_num, by norm_num, by norm_num,
    by norm_num [pTest, buildQLearnPolicy, List.replicate],
    by norm_num,
    q_table_bound_invariant 1 0 (by norm_num) (by norm_num) (by norm_num)
      pTest.Q (by norm_num [pTest, buildQLearnPolicy, List.replicate]) _
      (by norm_num)⟩
